import Mathlib

/-!
Shallow embedding of the fair + fuzzy bus-allotment core of
`src/streamlit_app.py` (repository Karthigeyan06/rit-alot).

The mutable Python state is threaded explicitly:
  * `bus_data` (a Python dict from bus name to `{stops, seats, count}`,
    iterated in insertion order) becomes an association list `BusData`;
  * the `students` SQL table becomes a `List Student`, with the sentinel
    string values `"None"` for `bus_allotted` / `allotted_stop` exactly as
    the code inserts them;
  * every SQL `UPDATE ... WHERE id=?` becomes a `List.map` that rewrites the
    matching rows, and every `SELECT` without `ORDER BY` is read in table
    (insertion) order, which SQLite yields for these queries.
-/

namespace RitAlot

/-! ### Similarity scorer

`fuzz.ratio` comes from the `fuzzywuzzy` library; its code is not part of
this repository.  Modelled from the spec: a symmetric normalized
edit-alignment similarity — the ratio of matched character alignment length
to total length of both strings, scaled to `0–100`; identical strings score
`100`.  The matched-alignment length is the longest common subsequence.
The recursion is fuelled so that the definition is structural (and hence
evaluates inside the kernel). -/

def lcsAux : Nat → List Char → List Char → Nat
  | 0, _, _ => 0
  | _ + 1, [], _ => 0
  | _ + 1, _ :: _, [] => 0
  | n + 1, a :: as, b :: bs =>
    if a = b then lcsAux n as bs + 1
    else max (lcsAux n (a :: as) bs) (lcsAux n as (b :: bs))

/-- Longest common subsequence length of two character lists. -/
def lcs (as bs : List Char) : Nat := lcsAux (as.length + bs.length) as bs

/-- Modelled from the spec: the similarity scorer (`fuzz.ratio` of the
`fuzzywuzzy` library, which is not part of this repository).  Score of two
strings in `[0, 100]`: twice the matched alignment length over the total
length, scaled to 100; two empty strings score 100. -/
def fuzz_ratio (a b : String) : Nat :=
  let x := a.toList
  let y := b.toList
  if x.length + y.length = 0 then 100
  else 200 * lcs x y / (x.length + y.length)

/-! ### Data model -/

/-- One bus record of the in-memory `bus_data` dict:
`{'stops': stops_list, 'seats': seats, 'count': 0}` (line 161–165). -/
structure Bus where
  stops : List String
  seats : Nat
  count : Nat
deriving Repr, DecidableEq

/-- The `bus_data` dict, in insertion order. -/
abbrev BusData := List (String × Bus)

/-- One row of the `students` table (the columns the engine touches).
Freshly loaded students carry `bus_allotted = "None"` and
`allotted_stop = "None"` (line 131–143). -/
structure Student where
  id : Nat
  choice1 : String
  choice2 : String
  bus_allotted : String
  allotted_stop : String
deriving Repr, DecidableEq

/-! ### CandidateMatcher — `match_buses_by_choice` (lines 45–53) -/

/-- One candidate: `(bus_name, stop, score)`. -/
abbrev Cand := String × String × Nat

/-- The `matched` list before sorting: for every bus (in dict order), for
every stop in its stop list, the triple `(bus_name, stop, score)` whenever
`score >= threshold` (lines 46–51). -/
def candidatesOf (choice : String) (bus_data : BusData) (threshold : Nat) : List Cand :=
  bus_data.flatMap fun p =>
    p.2.stops.filterMap fun stop =>
      if threshold ≤ fuzz_ratio choice stop then some (p.1, stop, fuzz_ratio choice stop)
      else none

/-- The sort order of line 52, `matched.sort(key=lambda x: -x[2])`: score
descending. -/
def scoreGe (x y : Cand) : Prop := y.2.2 ≤ x.2.2

instance : DecidableRel scoreGe := fun x y => Nat.decLe y.2.2 x.2.2

instance : IsTotal Cand scoreGe := ⟨fun x y => Nat.le_total y.2.2 x.2.2⟩

instance : IsTrans Cand scoreGe := ⟨fun _ _ _ h1 h2 => Nat.le_trans h2 h1⟩

instance : IsRefl Cand scoreGe := ⟨fun _ => Nat.le_refl _⟩

/-- `match_buses_by_choice(choice, bus_data, threshold)` (lines 45–53).
Python's `list.sort` is a stable sort; `List.insertionSort` with the
score-descending order is observationally the same stable sort. -/
def match_buses_by_choice (choice : String) (bus_data : BusData) (threshold : Nat) :
    List Cand :=
  (candidatesOf choice bus_data threshold).insertionSort scoreGe

/-! ### AllocationExecutor — `try_allocate_student` (lines 55–66) -/

/-- `bus_data[bus_name]['seats']`.  The key is always present when this is
called (candidates are built from `bus_data` itself); a missing key reads 0,
which only makes the guard `seats > 0` fail. -/
def seatsOf (bus_data : BusData) (name : String) : Nat :=
  match bus_data.find? (fun p => p.1 == name) with
  | some p => p.2.seats
  | none => 0

/-- `bus_data[bus_name]['seats'] -= 1; bus_data[bus_name]['count'] += 1`
(lines 63–64). -/
def consumeSeat (bus_data : BusData) (name : String) : BusData :=
  bus_data.map fun p =>
    if p.1 == name then (p.1, { p.2 with seats := p.2.seats - 1, count := p.2.count + 1 })
    else p

/-- `UPDATE students SET bus_allotted=?, allotted_stop=? WHERE id=?`
(lines 58–62). -/
def updateStudent (db : List Student) (sid : Nat) (bus stop : String) : List Student :=
  db.map fun s =>
    if s.id == sid then { s with bus_allotted := bus, allotted_stop := stop } else s

/-- The loop body of `try_allocate_student` over the matched candidate list
(lines 56–66): seat on the first candidate whose bus still has a seat. -/
def tryAllocGo (sid : Nat) (bus_data : BusData) (db : List Student) :
    List Cand → BusData × List Student × Bool
  | [] => (bus_data, db, false)
  | (bus_name, stop, _) :: rest =>
    if 0 < seatsOf bus_data bus_name then
      (consumeSeat bus_data bus_name, updateStudent db sid bus_name stop, true)
    else tryAllocGo sid bus_data db rest

/-- `try_allocate_student(student_id, choice, bus_data, c, threshold)`
(lines 55–66), returning the new `bus_data`, the new `students` table and
the boolean result. -/
def try_allocate_student (sid : Nat) (choice : String) (bus_data : BusData)
    (db : List Student) (threshold : Nat) : BusData × List Student × Bool :=
  tryAllocGo sid bus_data db (match_buses_by_choice choice bus_data threshold)

/-- The per-student body of the two allocation loops (lines 90–92 and
95–97): `if not try_allocate_student(sid, ch1, ...):
try_allocate_student(sid, ch2, ...)`. -/
def attemptSeat (sid : Nat) (ch1 ch2 : String) (bus_data : BusData)
    (db : List Student) (threshold : Nat) : BusData × List Student × Bool :=
  let r1 := try_allocate_student sid ch1 bus_data db threshold
  if r1.2.2 then r1
  else try_allocate_student sid ch2 r1.1 r1.2.1 threshold

/-! ### AllocationPlanner — `allocate_students_fair_fuzzy` (lines 68–101) -/

/-- The row `(id, choice1, choice2)` of the `SELECT` at lines 70–74. -/
def rowOf (s : Student) : Nat × String × String := (s.id, s.choice1, s.choice2)

/-- The `students` rows fetched at lines 69–74: `if specific_students:` is
Python truthiness, so `None` and the empty list both fall through to the
full-table `SELECT`; otherwise the rows whose `id` is in the given list, in
table order. -/
def selectedStudents (db : List Student) (specific_students : Option (List Nat)) :
    List (Nat × String × String) :=
  match specific_students with
  | some ids =>
    if ids.isEmpty then db.map rowOf
    else (db.filter fun s => ids.contains s.id).map rowOf
  | none => db.map rowOf

/-- `total_possible` (line 82): the distinct bus names appearing among the
candidates of either choice. -/
def feasibleBuses (ch1 ch2 : String) (bus_data : BusData) (threshold : Nat) :
    List String :=
  ((match_buses_by_choice ch1 bus_data threshold).map (·.1) ++
    (match_buses_by_choice ch2 bus_data threshold).map (·.1)).dedup

/-- `len(total_possible) == 1` (line 84): the single-option test. -/
def isConstrained (bus_data : BusData) (threshold : Nat)
    (row : Nat × String × String) : Bool :=
  (feasibleBuses row.2.1 row.2.2 bus_data threshold).length == 1

/-- One allocation loop over a row list (lines 90–92 / 95–97), threading the
mutable state. -/
def allocLoop : List (Nat × String × String) → BusData → List Student → Nat →
    BusData × List Student
  | [], bus_data, db, _ => (bus_data, db)
  | (sid, ch1, ch2) :: rest, bus_data, db, threshold =>
    let r := attemptSeat sid ch1 ch2 bus_data db threshold
    allocLoop rest r.1 r.2.1 threshold

/-- `allocate_students_fair_fuzzy(c, bus_data, threshold, specific_students)`
(lines 68–101): fetch the rows, split into `single_option` / `multi_option`,
allocate the single-option rows first, then the multi-option rows, and
return (with the final state) the ids of all still-unallotted students of
the whole table (line 100). -/
def allocate_students_fair_fuzzy (db : List Student) (bus_data : BusData)
    (threshold : Nat) (specific_students : Option (List Nat)) :
    BusData × List Student × List Nat :=
  let students := selectedStudents db specific_students
  let single_option := students.filter (isConstrained bus_data threshold)
  let multi_option := students.filter fun r => !isConstrained bus_data threshold r
  let r1 := allocLoop single_option bus_data db threshold
  let r2 := allocLoop multi_option r1.1 r1.2 threshold
  (r2.1, r2.2, (r2.2.filter fun s => s.bus_allotted == "None").map (·.id))

/-! ### RelaxationScheduler — the two-stage flow (lines 179–190) -/

/-- The two-stage allotment flow of the `Run Allotment` handler: one pass at
threshold 50 over all students, then, if anyone is left unallotted, one pass
at threshold 45 restricted to those ids.  Returns the final `bus_data`, the
final `students` table and the final unallotted id list. -/
def two_stage_allotment (db : List Student) (bus_data : BusData) :
    BusData × List Student × List Nat :=
  let r1 := allocate_students_fair_fuzzy db bus_data 50 none
  if r1.2.2.isEmpty then r1
  else allocate_students_fair_fuzzy r1.2.1 r1.1 45 (some r1.2.2)

/-! ### Input loading and validation (lines 110–165) -/

/-- The required student-CSV columns (line 123). -/
def required_cols : List String := ["Name", "Year", "Department", "Choice 1", "Choice 2"]

/-- The student-CSV validation at lines 124–126: the run is stopped
(`st.stop()`) unless every required column is present. -/
def student_csv_accepted (cols : List String) : Bool :=
  required_cols.all fun col => cols.contains col

/-- One uploaded bus CSV as the loading loop reads it (lines 148–165):
file name (bus name), the `Stoppings` column, and the first row of
`Seats Available` (`none` models a missing/NaN cell). -/
structure BusCsvFile where
  name : String
  stops : List String
  seatsAvailable : Option Int
deriving Repr, DecidableEq

/-- `int(df['Seats Available'].iloc[0]) if pd.notna(...) else 0`
(line 152).  No sign check is performed. -/
def loadSeats (f : BusCsvFile) : Int :=
  f.seatsAvailable.getD 0

/-- Whether the `Run Allotment` handler reaches the allocation passes
(lines 110–179): both uploads present and the student-CSV column check
passes.  The bus files are loaded without any validation. -/
def run_begins (studentCols : List String) (busFiles : List BusCsvFile) : Bool :=
  student_csv_accepted studentCols

/-! ### Derived measures used by the stated properties -/

/-- Number of students currently allotted to the bus called `name`. -/
def countAssigned (db : List Student) (name : String) : Nat :=
  (db.filter fun s => s.bus_allotted == name).length

/-- Number of students currently allotted to some bus. -/
def numAssigned (db : List Student) : Nat :=
  (db.filter fun s => s.bus_allotted != "None").length

/-- Total remaining seats over all buses. -/
def sumSeats (bus_data : BusData) : Nat :=
  (bus_data.map fun p => p.2.seats).sum

/-- The capacity invariant: every bus's remaining seats plus the number of
students currently allotted to it equals its total capacity. -/
def CapInv (total : String → Nat) (bus_data : BusData) (db : List Student) : Prop :=
  ∀ p ∈ bus_data, p.2.seats + countAssigned db p.1 = total p.1

/-! ### Lemmas about the similarity scorer -/

theorem lcsAux_le_left : ∀ (n : Nat) (as bs : List Char), lcsAux n as bs ≤ as.length := by
  intro n
  induction n with
  | zero => intro as bs; simp [lcsAux]
  | succ n ih =>
    intro as bs
    match as, bs with
    | [], _ => simp [lcsAux]
    | _ :: _, [] => simp [lcsAux]
    | a :: as, b :: bs =>
      simp only [lcsAux]
      split
      · simpa using ih as bs
      · refine max_le ?_ ?_
        · exact ih (a :: as) bs
        · exact le_trans (ih as (b :: bs)) (by simp)

theorem lcsAux_le_right : ∀ (n : Nat) (as bs : List Char), lcsAux n as bs ≤ bs.length := by
  intro n
  induction n with
  | zero => intro as bs; simp [lcsAux]
  | succ n ih =>
    intro as bs
    match as, bs with
    | [], _ => simp [lcsAux]
    | _ :: _, [] => simp [lcsAux]
    | a :: as, b :: bs =>
      simp only [lcsAux]
      split
      · simpa using ih as bs
      · refine max_le ?_ ?_
        · exact le_trans (ih (a :: as) bs) (by simp)
        · exact ih as (b :: bs)

theorem lcsAux_symm : ∀ (n : Nat) (as bs : List Char), lcsAux n as bs = lcsAux n bs as := by
  intro n
  induction n with
  | zero => intro as bs; simp [lcsAux]
  | succ n ih =>
    intro as bs
    match as, bs with
    | [], [] => rfl
    | [], _ :: _ => rfl
    | _ :: _, [] => rfl
    | a :: as, b :: bs =>
      simp only [lcsAux]
      by_cases hab : a = b
      · subst hab; simp [ih as bs]
      · have hba : ¬b = a := fun h => hab h.symm
        simp only [if_neg hab, if_neg hba]
        rw [Nat.max_comm, ih (a :: as) bs, ih as (b :: bs)]

theorem lcsAux_self (as : List Char) : ∀ n, as.length ≤ n → lcsAux n as as = as.length := by
  induction as with
  | nil => intro n _; cases n <;> simp [lcsAux]
  | cons a as ih =>
    intro n hn
    match n, hn with
    | n + 1, hn =>
      simp only [lcsAux, List.length_cons, if_true]
      rw [ih n (by simpa using hn)]

theorem lcs_symm (as bs : List Char) : lcs as bs = lcs bs as := by
  unfold lcs
  rw [Nat.add_comm, lcsAux_symm]

theorem lcs_self (as : List Char) : lcs as as = as.length := by
  unfold lcs
  exact lcsAux_self as _ (by omega)

/-! ### Lemmas about the candidate matcher -/

theorem mem_candidatesOf {choice : String} {bd : BusData} {t : Nat} {n st : String}
    {sc : Nat} :
    (n, st, sc) ∈ candidatesOf choice bd t ↔
      ∃ b : Bus, (n, b) ∈ bd ∧ st ∈ b.stops ∧ sc = fuzz_ratio choice st ∧ t ≤ sc := by
  simp only [candidatesOf, List.mem_flatMap, List.mem_filterMap]
  constructor
  · rintro ⟨p, hp, stop, hstop, hsome⟩
    split at hsome
    · rename_i hth
      injection hsome with e
      injection e with e1 e2
      injection e2 with e2 e3
      subst e1; subst e2; subst e3
      exact ⟨p.2, hp, hstop, rfl, hth⟩
    · exact absurd hsome (by simp)
  · rintro ⟨b, hb, hst, hsc, hth⟩
    subst hsc
    exact ⟨(n, b), hb, st, hst, by rw [if_pos hth]⟩

theorem candidatesOf_name_mem {choice : String} {bd : BusData} {t : Nat} {c : Cand}
    (h : c ∈ candidatesOf choice bd t) : c.1 ∈ bd.map (·.1) := by
  obtain ⟨n, st, sc⟩ := c
  obtain ⟨b, hb, -, -, -⟩ := mem_candidatesOf.mp h
  exact List.mem_map.mpr ⟨(n, b), hb, rfl⟩

theorem mem_match_buses {choice : String} {bd : BusData} {t : Nat} {c : Cand} :
    c ∈ match_buses_by_choice choice bd t ↔ c ∈ candidatesOf choice bd t :=
  List.mem_insertionSort scoreGe

theorem match_buses_name_mem {choice : String} {bd : BusData} {t : Nat} {c : Cand}
    (h : c ∈ match_buses_by_choice choice bd t) : c.1 ∈ bd.map (·.1) :=
  candidatesOf_name_mem (mem_match_buses.mp h)

theorem candidatesOf_mono {choice : String} {bd : BusData} {t1 t2 : Nat} (h : t2 ≤ t1) :
    ∀ c ∈ candidatesOf choice bd t1, c ∈ candidatesOf choice bd t2 := by
  rintro ⟨n, st, sc⟩ hc
  obtain ⟨b, hb, hst, hsc, hth⟩ := mem_candidatesOf.mp hc
  exact mem_candidatesOf.mpr ⟨b, hb, hst, hsc, le_trans h hth⟩

theorem match_buses_perm (choice : String) (bd : BusData) (t : Nat) :
    List.Perm (match_buses_by_choice choice bd t) (candidatesOf choice bd t) :=
  List.perm_insertionSort scoreGe _

theorem match_buses_sorted (choice : String) (bd : BusData) (t : Nat) :
    (match_buses_by_choice choice bd t).Sorted scoreGe :=
  List.sorted_insertionSort scoreGe _

/-- Stability of the sort at line 52: within every score class, the sorted
output lists the candidates in exactly the order the nested loops of lines
47–51 produced them. -/
theorem match_buses_stable (choice : String) (bd : BusData) (t : Nat) (s : Nat) :
    (match_buses_by_choice choice bd t).filter (fun c => c.2.2 == s) =
      (candidatesOf choice bd t).filter (fun c => c.2.2 == s) := by
  set l := candidatesOf choice bd t with hl
  set m := match_buses_by_choice choice bd t with hm
  have hpw : (l.filter fun c => c.2.2 == s).Pairwise scoreGe := by
    refine List.pairwise_of_forall_mem_list ?_
    intro x hx y hy
    have hxs : x.2.2 = s := by simpa using (List.mem_filter.mp hx).2
    have hys : y.2.2 = s := by simpa using (List.mem_filter.mp hy).2
    unfold scoreGe
    omega
  have hsub : List.Sublist (l.filter fun c => c.2.2 == s) m :=
    List.sublist_insertionSort hpw (List.filter_sublist l)
  have hsub2 : List.Sublist (l.filter fun c => c.2.2 == s) (m.filter fun c => c.2.2 == s) := by
    have h1 := List.Sublist.filter (fun c : Cand => c.2.2 == s) hsub
    rw [List.filter_filter] at h1
    have hpp : (fun a : Cand => (a.2.2 == s) && (a.2.2 == s)) = fun c : Cand => c.2.2 == s := by
      funext c; cases h : c.2.2 == s <;> simp [h]
    rwa [hpp] at h1
  have hlen : (m.filter fun c => c.2.2 == s).length = (l.filter fun c => c.2.2 == s).length :=
    ((match_buses_perm choice bd t).filter _).length_eq
  exact (hsub2.eq_of_length hlen.symm).symm

/-! ### Lemmas about the executor -/

/-- Whether a candidate's bus still has a free seat in `bus_data`. -/
def hasSeat (bd : BusData) (c : Cand) : Bool := decide (0 < seatsOf bd c.1)

theorem tryAllocGo_eq_find (sid : Nat) (bd : BusData) (db : List Student) :
    ∀ l : List Cand,
      tryAllocGo sid bd db l =
        match l.find? (hasSeat bd) with
        | some c => (consumeSeat bd c.1, updateStudent db sid c.1 c.2.1, true)
        | none => (bd, db, false) := by
  intro l
  induction l with
  | nil => rfl
  | cons c rest ih =>
    obtain ⟨name, stop, sc⟩ := c
    by_cases h : 0 < seatsOf bd name
    · rw [tryAllocGo, if_pos h, List.find?_cons_of_pos _ (by simpa [hasSeat] using h)]
    · rw [tryAllocGo, if_neg h, List.find?_cons_of_neg _ (by simpa [hasSeat] using h), ih]

theorem try_allocate_eq (sid : Nat) (choice : String) (bd : BusData) (db : List Student)
    (t : Nat) :
    try_allocate_student sid choice bd db t =
      match (match_buses_by_choice choice bd t).find? (hasSeat bd) with
      | some c => (consumeSeat bd c.1, updateStudent db sid c.1 c.2.1, true)
      | none => (bd, db, false) :=
  tryAllocGo_eq_find sid bd db _

theorem attemptSeat_eq (sid : Nat) (ch1 ch2 : String) (bd : BusData) (db : List Student)
    (t : Nat) :
    attemptSeat sid ch1 ch2 bd db t =
      match (match_buses_by_choice ch1 bd t ++ match_buses_by_choice ch2 bd t).find?
          (hasSeat bd) with
      | some c => (consumeSeat bd c.1, updateStudent db sid c.1 c.2.1, true)
      | none => (bd, db, false) := by
  unfold attemptSeat
  rw [List.find?_append]
  cases h1 : (match_buses_by_choice ch1 bd t).find? (hasSeat bd) with
  | some c =>
    rw [try_allocate_eq, h1]
    rfl
  | none =>
    rw [try_allocate_eq, h1]
    simp only [Option.none_or]
    exact try_allocate_eq sid ch2 bd db t

theorem consumeSeat_keys (bd : BusData) (name : String) :
    (consumeSeat bd name).map (·.1) = bd.map (·.1) := by
  unfold consumeSeat
  rw [List.map_map]
  refine List.map_congr_left ?_
  intro p _
  dsimp only [Function.comp]
  split <;> rfl

theorem updateStudent_ids (db : List Student) (sid : Nat) (bus stop : String) :
    (updateStudent db sid bus stop).map (·.id) = db.map (·.id) := by
  unfold updateStudent
  rw [List.map_map]
  refine List.map_congr_left ?_
  intro s _
  dsimp only [Function.comp]
  split <;> rfl

theorem updateStudent_mem_of_ne {db : List Student} {sid : Nat} {bus stop : String}
    {s : Student} (hs : s ∈ db) (hne : s.id ≠ sid) :
    s ∈ updateStudent db sid bus stop := by
  unfold updateStudent
  have : (if s.id == sid then
      { s with bus_allotted := bus, allotted_stop := stop } else s) = s := by
    rw [if_neg (by simpa using hne)]
  exact this ▸ List.mem_map_of_mem _ hs

theorem seatsOf_cons_pos {p : String × Bus} (rest : BusData) {name : String}
    (h : (p.1 == name) = true) : seatsOf (p :: rest) name = p.2.seats := by
  simp [seatsOf, List.find?_cons, h]

theorem seatsOf_cons_neg {p : String × Bus} (rest : BusData) {name : String}
    (h : ¬(p.1 == name) = true) : seatsOf (p :: rest) name = seatsOf rest name := by
  have h' : (p.1 == name) = false := by simpa using h
  simp [seatsOf, List.find?_cons, h']

theorem consumeSeat_cons (p : String × Bus) (rest : BusData) (name : String) :
    consumeSeat (p :: rest) name =
      (if (p.1 == name) = true then
        (p.1, { p.2 with seats := p.2.seats - 1, count := p.2.count + 1 })
      else p) :: consumeSeat rest name := rfl

theorem seatsOf_consumeSeat_self (bd : BusData) (name : String) :
    seatsOf (consumeSeat bd name) name = seatsOf bd name - 1 := by
  induction bd with
  | nil => simp [seatsOf, consumeSeat]
  | cons p rest ih =>
    by_cases h : (p.1 == name) = true
    · rw [consumeSeat_cons, if_pos h, seatsOf_cons_pos rest h]
      simp [seatsOf, List.find?_cons, h]
    · have h' : (p.1 == name) = false := by simpa using h
      rw [consumeSeat_cons, if_neg h, seatsOf_cons_neg rest h]
      have hl : seatsOf (p :: consumeSeat rest name) name =
          seatsOf (consumeSeat rest name) name := by
        simp [seatsOf, List.find?_cons, h']
      rw [hl]
      exact ih

theorem seatsOf_consumeSeat_ne (bd : BusData) {name n : String} (hne : n ≠ name) :
    seatsOf (consumeSeat bd name) n = seatsOf bd n := by
  induction bd with
  | nil => simp [seatsOf, consumeSeat]
  | cons p rest ih =>
    by_cases h : (p.1 == name) = true
    · have hp : p.1 = name := by simpa using h
      have hpn' : (p.1 == n) = false := by
        simp only [hp, beq_eq_false_iff_ne, ne_eq]
        exact fun e => hne e.symm
      rw [consumeSeat_cons, if_pos h, seatsOf_cons_neg rest (by simp [hpn'])]
      have hl : seatsOf ((p.1, { p.2 with seats := p.2.seats - 1, count := p.2.count + 1 }) ::
          consumeSeat rest name) n = seatsOf (consumeSeat rest name) n := by
        simp [seatsOf, List.find?_cons, hpn']
      rw [hl]
      exact ih
    · by_cases hp : (p.1 == n) = true
      · rw [consumeSeat_cons, if_neg h, seatsOf_cons_pos rest hp]
        simp [seatsOf, List.find?_cons, hp]
      · have hp' : (p.1 == n) = false := by simpa using hp
        rw [consumeSeat_cons, if_neg h, seatsOf_cons_neg rest hp]
        have hl : seatsOf (p :: consumeSeat rest name) n =
            seatsOf (consumeSeat rest name) n := by
          simp [seatsOf, List.find?_cons, hp']
        rw [hl]
        exact ih

theorem seatsOf_eq_of_mem_nodup {bd : BusData} (hnd : (bd.map (·.1)).Nodup)
    {name : String} {b : Bus} (hmem : (name, b) ∈ bd) : seatsOf bd name = b.seats := by
  induction bd with
  | nil => cases hmem
  | cons p rest ih =>
    rw [List.map_cons, List.nodup_cons] at hnd
    rcases List.mem_cons.mp hmem with heq | hrest
    · subst heq
      rw [seatsOf_cons_pos _ (by simp)]
    · have hne : ¬(p.1 == name) = true := by
        intro h
        exact hnd.1 (by
          have hp : p.1 = name := by simpa using h
          rw [hp]
          exact List.mem_map.mpr ⟨(name, b), hrest, rfl⟩)
      rw [seatsOf_cons_neg _ hne]
      exact ih hnd.2 hrest

theorem consumeSeat_of_not_mem {bd : BusData} {name : String}
    (h : name ∉ bd.map (·.1)) : consumeSeat bd name = bd := by
  unfold consumeSeat
  have hid : ∀ p ∈ bd, (if p.1 == name then
      (p.1, { p.2 with seats := p.2.seats - 1, count := p.2.count + 1 }) else p) = p := by
    intro p hp
    by_cases hb : (p.1 == name) = true
    · exact absurd (List.mem_map.mpr ⟨p, hp, by simpa using hb⟩) h
    · simp [hb]
  calc bd.map _ = bd.map id := List.map_congr_left hid
    _ = bd := List.map_id bd

theorem sumSeats_cons (p : String × Bus) (rest : BusData) :
    sumSeats (p :: rest) = p.2.seats + sumSeats rest := by
  simp [sumSeats]

theorem sumSeats_consumeSeat {bd : BusData} {name : String}
    (hnd : (bd.map (·.1)).Nodup) (hpos : 0 < seatsOf bd name) :
    sumSeats (consumeSeat bd name) + 1 = sumSeats bd := by
  induction bd with
  | nil => simp [seatsOf] at hpos
  | cons p rest ih =>
    rw [List.map_cons, List.nodup_cons] at hnd
    by_cases h : (p.1 == name) = true
    · have hpn : p.1 = name := by simpa using h
      have hrest : consumeSeat rest name = rest :=
        consumeSeat_of_not_mem (hpn ▸ hnd.1)
      rw [seatsOf_cons_pos _ h] at hpos
      rw [consumeSeat_cons, if_pos h, hrest, sumSeats_cons, sumSeats_cons]
      show p.2.seats - 1 + sumSeats rest + 1 = p.2.seats + sumSeats rest
      omega
    · rw [seatsOf_cons_neg _ h] at hpos
      have := ih hnd.2 hpos
      rw [consumeSeat_cons, if_neg h, sumSeats_cons, sumSeats_cons]
      omega

/-! ### Counting lemmas for the capacity invariant -/

theorem updateStudent_cons (s : Student) (rest : List Student) (sid : Nat)
    (bus stop : String) :
    updateStudent (s :: rest) sid bus stop =
      (if (s.id == sid) = true then { s with bus_allotted := bus, allotted_stop := stop }
      else s) :: updateStudent rest sid bus stop := rfl

theorem countAssigned_cons (s : Student) (rest : List Student) (n : String) :
    countAssigned (s :: rest) n =
      (if (s.bus_allotted == n) = true then 1 else 0) + countAssigned rest n := by
  by_cases h : (s.bus_allotted == n) = true
  · simp [countAssigned, List.filter_cons, h, Nat.add_comm]
  · simp [countAssigned, List.filter_cons, h]

theorem countAssigned_updateStudent (db : List Student) (sid : Nat) (name stop n : String)
    (hn : n ≠ "None")
    (hall : ∀ s ∈ db, s.id = sid → s.bus_allotted = "None") :
    countAssigned (updateStudent db sid name stop) n =
      countAssigned db n +
        (if n = name then (db.filter fun s => s.id == sid).length else 0) := by
  induction db with
  | nil => simp [countAssigned, updateStudent]
  | cons s rest ih =>
    have hrest := ih fun x hx hx2 => hall x (List.mem_cons_of_mem s hx) hx2
    by_cases hid : (s.id == sid) = true
    · have hidv : s.id = sid := by simpa using hid
      have hnone : s.bus_allotted = "None" := hall s (List.mem_cons_self s rest) hidv
      rw [updateStudent_cons, if_pos hid, countAssigned_cons, countAssigned_cons, hrest]
      have hold : (s.bus_allotted == n) = false := by
        rw [hnone]
        simpa using fun e : "None" = n => hn e.symm
      have hfil : ((s :: rest).filter fun x => x.id == sid).length =
          (rest.filter fun x => x.id == sid).length + 1 := by
        simp [List.filter_cons, hid]
      rw [hold, hfil]
      by_cases hnn : n = name
      · subst hnn
        have hnew : (({ s with bus_allotted := n, allotted_stop := stop } :
            Student).bus_allotted == n) = true := by
          simp
        simp [hnew]
        omega
      · have hnew : (({ s with bus_allotted := name, allotted_stop := stop } :
            Student).bus_allotted == n) = false := by
          simp only [beq_eq_false_iff_ne, ne_eq]
          exact fun e => hnn e.symm
        simp only [hnew, hnn, if_true, if_false, Bool.false_eq_true, ite_true, ite_false]
        omega
    · rw [updateStudent_cons, if_neg hid, countAssigned_cons, countAssigned_cons, hrest]
      have hfil : ((s :: rest).filter fun x => x.id == sid).length =
          (rest.filter fun x => x.id == sid).length := by
        simp [List.filter_cons, hid]
      rw [hfil]
      omega

theorem filter_id_length_one {db : List Student} {sid : Nat}
    (hnd : (db.map (·.id)).Nodup) {s₀ : Student} (hs₀ : s₀ ∈ db) (hid : s₀.id = sid) :
    (db.filter fun s => s.id == sid).length = 1 := by
  induction db with
  | nil => cases hs₀
  | cons s rest ih =>
    rw [List.map_cons, List.nodup_cons] at hnd
    by_cases h : (s.id == sid) = true
    · have hrest0 : ∀ x ∈ rest, ¬(x.id == sid) = true := by
        intro x hx hxe
        refine hnd.1 ?_
        have h1 : s.id = sid := by simpa using h
        have h2 : x.id = sid := by simpa using hxe
        rw [h1, ← h2]
        exact List.mem_map.mpr ⟨x, hx, rfl⟩
      have hempty : rest.filter (fun s => s.id == sid) = [] :=
        List.filter_eq_nil_iff.mpr hrest0
      simp [List.filter_cons, h, hempty]
    · rcases List.mem_cons.mp hs₀ with rfl | hmem
      · exact absurd (by simpa using hid) h
      · rw [List.filter_cons]
        simp only [h, ite_false]
        exact ih hnd.2 hmem

theorem all_id_unassigned_of_nodup {db : List Student} {sid : Nat}
    (hnd : (db.map (·.id)).Nodup) {s₀ : Student} (hs₀ : s₀ ∈ db) (hid : s₀.id = sid)
    (hnone : s₀.bus_allotted = "None") :
    ∀ s ∈ db, s.id = sid → s.bus_allotted = "None" := by
  intro s hs he
  have heq : s = s₀ := List.inj_on_of_nodup_map hnd hs hs₀ (by rw [he, hid])
  rw [heq]
  exact hnone

/-- The single mutation point preserves the capacity invariant: a successful
seating of a still-unassigned student onto bus `name` with a free seat. -/
theorem CapInv_consume_update {total : String → Nat} {bd : BusData} {db : List Student}
    (hinv : CapInv total bd db)
    (hkeys : (bd.map (·.1)).Nodup) (hnone : ∀ p ∈ bd, p.1 ≠ "None")
    (hids : (db.map (·.id)).Nodup)
    {sid : Nat} {s₀ : Student} (hs₀ : s₀ ∈ db) (hsid : s₀.id = sid)
    (hs₀None : s₀.bus_allotted = "None")
    {name : String} (stop : String) (hpos : 0 < seatsOf bd name) :
    CapInv total (consumeSeat bd name) (updateStudent db sid name stop) := by
  intro p' hp'
  unfold consumeSeat at hp'
  obtain ⟨q, hq, hq'⟩ := List.mem_map.mp hp'
  have hall := all_id_unassigned_of_nodup hids hs₀ hsid hs₀None
  have hflen := filter_id_length_one hids hs₀ hsid
  by_cases hqn : (q.1 == name) = true
  · have hq1 : q.1 = name := by simpa using hqn
    have hp'eq : p' = (q.1, { q.2 with seats := q.2.seats - 1, count := q.2.count + 1 }) := by
      rw [← hq', if_pos hqn]
    have hseats : seatsOf bd name = q.2.seats := by
      refine seatsOf_eq_of_mem_nodup hkeys ?_
      rw [← hq1]
      exact hq
    have hcnt := countAssigned_updateStudent db sid name stop q.1 (hnone q hq) hall
    rw [if_pos hq1, hflen] at hcnt
    have hinvq := hinv q hq
    rw [hp'eq]
    dsimp only
    rw [hcnt]
    omega
  · have hq1 : q.1 ≠ name := by simpa using hqn
    have hp'eq : p' = q := by rw [← hq', if_neg hqn]
    have hcnt := countAssigned_updateStudent db sid name stop q.1 (hnone q hq) hall
    rw [if_neg hq1] at hcnt
    rw [hp'eq, hcnt]
    have hinvq := hinv q hq
    omega

/-! ### Lemmas about the allocation loops -/

theorem key_ne_none {bd : BusData} (hnone : ∀ p ∈ bd, p.1 ≠ "None") {name : String}
    (h : name ∈ bd.map (·.1)) : name ≠ "None" := by
  obtain ⟨q, hq, hq'⟩ := List.mem_map.mp h
  exact hq' ▸ hnone q hq

theorem consumeSeat_none_free {bd : BusData} (hnone : ∀ p ∈ bd, p.1 ≠ "None")
    (name : String) : ∀ p ∈ consumeSeat bd name, p.1 ≠ "None" := by
  intro p hp
  unfold consumeSeat at hp
  obtain ⟨q, hq, hq'⟩ := List.mem_map.mp hp
  have hkey : p.1 = q.1 := by
    rw [← hq']
    split <;> rfl
  rw [hkey]
  exact hnone q hq

/-- Every `attemptSeat` call either fails and leaves the state untouched, or
seats the student on a candidate of one of their two choices whose bus has a
free seat. -/
theorem attemptSeat_cases (sid : Nat) (ch1 ch2 : String) (bd : BusData)
    (db : List Student) (t : Nat) :
    attemptSeat sid ch1 ch2 bd db t = (bd, db, false) ∨
    ∃ c : Cand, (c ∈ candidatesOf ch1 bd t ∨ c ∈ candidatesOf ch2 bd t) ∧
      0 < seatsOf bd c.1 ∧
      attemptSeat sid ch1 ch2 bd db t =
        (consumeSeat bd c.1, updateStudent db sid c.1 c.2.1, true) := by
  rw [attemptSeat_eq]
  cases hf : (match_buses_by_choice ch1 bd t ++ match_buses_by_choice ch2 bd t).find?
      (hasSeat bd) with
  | none => exact Or.inl rfl
  | some c =>
    refine Or.inr ⟨c, ?_, ?_, rfl⟩
    · rcases List.mem_append.mp (List.mem_of_find?_eq_some hf) with h | h
      · exact Or.inl (mem_match_buses.mp h)
      · exact Or.inr (mem_match_buses.mp h)
    · have := List.find?_some hf
      simpa [hasSeat] using this

theorem allocLoop_cons (sid : Nat) (ch1 ch2 : String)
    (rest : List (Nat × String × String)) (bd : BusData) (db : List Student) (t : Nat) :
    allocLoop ((sid, ch1, ch2) :: rest) bd db t =
      allocLoop rest (attemptSeat sid ch1 ch2 bd db t).1
        (attemptSeat sid ch1 ch2 bd db t).2.1 t := rfl

theorem allocLoop_keys_ids :
    ∀ (rows : List (Nat × String × String)) (bd : BusData) (db : List Student) (t : Nat),
      ((allocLoop rows bd db t).1.map (·.1) = bd.map (·.1)) ∧
      ((allocLoop rows bd db t).2.map (·.id) = db.map (·.id)) := by
  intro rows
  induction rows with
  | nil => intro bd db t; exact ⟨rfl, rfl⟩
  | cons row rest ih =>
    intro bd db t
    obtain ⟨sid, ch1, ch2⟩ := row
    rcases attemptSeat_cases sid ch1 ch2 bd db t with heq | ⟨c, _, _, heq⟩
    · rw [allocLoop_cons, heq]
      exact ih bd db t
    · rw [allocLoop_cons, heq]
      refine ⟨?_, ?_⟩
      · exact ((ih _ _ t).1).trans (consumeSeat_keys bd c.1)
      · exact ((ih _ _ t).2).trans (updateStudent_ids db sid c.1 c.2.1)

theorem allocLoop_append (l1 l2 : List (Nat × String × String)) (bd : BusData)
    (db : List Student) (t : Nat) :
    allocLoop (l1 ++ l2) bd db t =
      allocLoop l2 (allocLoop l1 bd db t).1 (allocLoop l1 bd db t).2 t := by
  induction l1 generalizing bd db with
  | nil => rfl
  | cons row rest ih =>
    obtain ⟨sid, ch1, ch2⟩ := row
    rw [List.cons_append, allocLoop_cons, allocLoop_cons, ih]

/-- The student table after an allocation loop is a pointwise rewriting of
the table before it: ids are unchanged, students whose id is not among the
processed rows are untouched, and an already-assigned student never becomes
unassigned (the rewritten bus name is always a real bus key). -/
theorem allocLoop_db_map :
    ∀ (rows : List (Nat × String × String)) (bd : BusData) (db : List Student) (t : Nat),
      ∃ f : Student → Student,
        (allocLoop rows bd db t).2 = db.map f ∧
        (∀ s, (f s).id = s.id) ∧
        (∀ s, s.id ∉ rows.map (·.1) → f s = s) ∧
        ((∀ p ∈ bd, p.1 ≠ "None") →
          ∀ s, s.bus_allotted ≠ "None" → (f s).bus_allotted ≠ "None") := by
  intro rows
  induction rows with
  | nil =>
    intro bd db t
    exact ⟨id, (List.map_id db).symm, fun _ => rfl, fun _ _ => rfl, fun _ _ h => h⟩
  | cons row rest ih =>
    intro bd db t
    obtain ⟨sid, ch1, ch2⟩ := row
    rcases attemptSeat_cases sid ch1 ch2 bd db t with heq | ⟨c, hc, hpos, heq⟩
    · rw [allocLoop_cons, heq]
      obtain ⟨f, hf1, hf2, hf3, hf4⟩ := ih bd db t
      refine ⟨f, hf1, hf2, fun s hs => hf3 s ?_, hf4⟩
      intro hmem
      exact hs (by simpa using Or.inr hmem)
    · rw [allocLoop_cons, heq]
      obtain ⟨f, hf1, hf2, hf3, hf4⟩ := ih (consumeSeat bd c.1) (updateStudent db sid c.1 c.2.1) t
      refine ⟨fun s => f (if (s.id == sid) = true then
        { s with bus_allotted := c.1, allotted_stop := c.2.1 } else s), ?_, ?_, ?_, ?_⟩
      · rw [hf1]
        unfold updateStudent
        rw [List.map_map]
        rfl
      · intro s
        dsimp only
        rw [hf2]
        split <;> rfl
      · intro s hs
        have hsid : s.id ≠ sid := fun h => hs (by simpa using Or.inl h)
        have hrest : s.id ∉ rest.map (·.1) := fun h => hs (by simpa using Or.inr h)
        dsimp only
        rw [if_neg (by simpa using hsid)]
        exact hf3 s hrest
      · intro hnone s hs
        dsimp only
        have hname : c.1 ∈ bd.map (·.1) := by
          rcases hc with h | h
          · exact candidatesOf_name_mem h
          · exact candidatesOf_name_mem h
        have hcn : c.1 ≠ "None" := key_ne_none hnone hname
        refine hf4 (consumeSeat_none_free hnone c.1) _ ?_
        split
        · exact hcn
        · exact hs

theorem numAssigned_map_le (db : List Student) (f : Student → Student)
    (hf : ∀ s, s.bus_allotted ≠ "None" → (f s).bus_allotted ≠ "None") :
    numAssigned db ≤ numAssigned (db.map f) := by
  induction db with
  | nil => simp [numAssigned]
  | cons s rest ih =>
    by_cases h : (s.bus_allotted != "None") = true
    · have h2 : ((f s).bus_allotted != "None") = true := by
        have h3 := hf s (by simpa using h)
        simpa using h3
      simp only [numAssigned, List.map_cons, List.filter_cons, h, h2, if_true,
        List.length_cons]
      simp only [numAssigned] at ih
      omega
    · cases h2 : ((f s).bus_allotted != "None") with
      | false =>
        simp only [numAssigned, List.map_cons, List.filter_cons, h, h2,
          Bool.false_eq_true, if_false]
        exact ih
      | true =>
        simp only [numAssigned, List.map_cons, List.filter_cons, h, h2, if_true,
          Bool.false_eq_true, if_false, List.length_cons]
        simp only [numAssigned] at ih
        omega

/-- The capacity invariant is preserved by a whole allocation loop, provided
every processed row belongs to a distinct, still-unassigned student. -/
theorem allocLoop_capinv :
    ∀ (rows : List (Nat × String × String)) (bd : BusData) (db : List Student) (t : Nat)
      (total : String → Nat),
      (bd.map (·.1)).Nodup → (∀ p ∈ bd, p.1 ≠ "None") → (db.map (·.id)).Nodup →
      (rows.map (·.1)).Nodup →
      (∀ r ∈ rows, ∃ s ∈ db, s.id = r.1 ∧ s.bus_allotted = "None") →
      CapInv total bd db →
      CapInv total (allocLoop rows bd db t).1 (allocLoop rows bd db t).2 := by
  intro rows
  induction rows with
  | nil => intro bd db t total _ _ _ _ _ hinv; exact hinv
  | cons row rest ih =>
    intro bd db t total hkeys hnone hids hrows hmem hinv
    obtain ⟨sid, ch1, ch2⟩ := row
    rw [List.map_cons, List.nodup_cons] at hrows
    rcases attemptSeat_cases sid ch1 ch2 bd db t with heq | ⟨c, hc, hpos, heq⟩
    · rw [allocLoop_cons, heq]
      exact ih bd db t total hkeys hnone hids hrows.2
        (fun r hr => hmem r (List.mem_cons_of_mem _ hr)) hinv
    · rw [allocLoop_cons, heq]
      obtain ⟨s₀, hs₀, hs₀id, hs₀None⟩ := hmem (sid, ch1, ch2) (List.mem_cons_self _ _)
      have hinv' : CapInv total (consumeSeat bd c.1) (updateStudent db sid c.1 c.2.1) :=
        CapInv_consume_update hinv hkeys hnone hids hs₀ hs₀id hs₀None c.2.1 hpos
      refine ih _ _ t total ?_ ?_ ?_ hrows.2 ?_ hinv'
      · rw [consumeSeat_keys]
        exact hkeys
      · exact consumeSeat_none_free hnone c.1
      · rw [updateStudent_ids]
        exact hids
      · intro r hr
        obtain ⟨s, hs, hsid, hsNone⟩ := hmem r (List.mem_cons_of_mem _ hr)
        have hne : s.id ≠ sid := by
          rw [hsid]
          intro h
          exact hrows.1 (h ▸ List.mem_map.mpr ⟨r, hr, rfl⟩)
        exact ⟨s, updateStudent_mem_of_ne hs hne, hsid, hsNone⟩

/-! ### Lemmas about one allocation pass -/

theorem selectedStudents_none (db : List Student) :
    selectedStudents db none = db.map rowOf := rfl

theorem selectedStudents_some (db : List Student) (ids : List Nat) :
    selectedStudents db (some ids) =
      if ids.isEmpty = true then db.map rowOf
      else (db.filter fun s => ids.contains s.id).map rowOf := rfl

theorem selectedStudents_ids_sublist (db : List Student) (spec : Option (List Nat)) :
    List.Sublist ((selectedStudents db spec).map (·.1)) (db.map (·.id)) := by
  have hall : ((db.map rowOf).map (·.1)) = db.map (·.id) := by
    rw [List.map_map]
    rfl
  cases spec with
  | none =>
    rw [selectedStudents_none, hall]
  | some ids =>
    rw [selectedStudents_some]
    by_cases h : ids.isEmpty
    · rw [if_pos h, hall]
    · rw [if_neg h, List.map_map]
      have hcomp : ((db.filter fun s => ids.contains s.id).map ((·.1) ∘ rowOf)) =
          (db.filter fun s => ids.contains s.id).map (·.id) := rfl
      rw [hcomp]
      exact List.Sublist.map _ (List.filter_sublist db)

theorem selectedStudents_mem_row {db : List Student} {spec : Option (List Nat)}
    {r : Nat × String × String} (h : r ∈ selectedStudents db spec) :
    ∃ s ∈ db, rowOf s = r := by
  cases spec with
  | none =>
    rw [selectedStudents_none] at h
    obtain ⟨s, hs, hr⟩ := List.mem_map.mp h
    exact ⟨s, hs, hr⟩
  | some ids =>
    rw [selectedStudents_some] at h
    by_cases he : ids.isEmpty
    · rw [if_pos he] at h
      obtain ⟨s, hs, hr⟩ := List.mem_map.mp h
      exact ⟨s, hs, hr⟩
    · rw [if_neg he] at h
      obtain ⟨s, hs, hr⟩ := List.mem_map.mp h
      exact ⟨s, (List.mem_filter.mp hs).1, hr⟩

/-- The two sequential loops of lines 90–97 are one loop over the
constrained rows followed by the flexible rows. -/
theorem pass_eq_combined (db : List Student) (bd : BusData) (t : Nat)
    (spec : Option (List Nat)) :
    ((allocate_students_fair_fuzzy db bd t spec).1,
      (allocate_students_fair_fuzzy db bd t spec).2.1) =
      allocLoop ((selectedStudents db spec).filter (isConstrained bd t) ++
        (selectedStudents db spec).filter fun r => !isConstrained bd t r) bd db t := by
  unfold allocate_students_fair_fuzzy
  rw [allocLoop_append]

theorem pass_unallotted_eq (db : List Student) (bd : BusData) (t : Nat)
    (spec : Option (List Nat)) :
    (allocate_students_fair_fuzzy db bd t spec).2.2 =
      ((allocate_students_fair_fuzzy db bd t spec).2.1.filter
        fun s => s.bus_allotted == "None").map (·.id) := rfl

theorem pass_keys_ids (db : List Student) (bd : BusData) (t : Nat)
    (spec : Option (List Nat)) :
    ((allocate_students_fair_fuzzy db bd t spec).1.map (·.1) = bd.map (·.1)) ∧
    ((allocate_students_fair_fuzzy db bd t spec).2.1.map (·.id) = db.map (·.id)) := by
  have h := pass_eq_combined db bd t spec
  have h1 := congrArg Prod.fst h
  have h2 := congrArg Prod.snd h
  dsimp at h1 h2
  rw [h1, h2]
  exact allocLoop_keys_ids _ bd db t

/-- The student table after one pass is a pointwise rewriting of the table
before it. -/
theorem pass_db_map (db : List Student) (bd : BusData) (t : Nat)
    (spec : Option (List Nat)) :
    ∃ f : Student → Student,
      (allocate_students_fair_fuzzy db bd t spec).2.1 = db.map f ∧
      (∀ s, (f s).id = s.id) ∧
      (∀ s, s.id ∉ (selectedStudents db spec).map (·.1) → f s = s) ∧
      ((∀ p ∈ bd, p.1 ≠ "None") →
        ∀ s, s.bus_allotted ≠ "None" → (f s).bus_allotted ≠ "None") := by
  have h := pass_eq_combined db bd t spec
  have h2 := congrArg (fun x : BusData × List Student => x.2) h
  dsimp at h2
  obtain ⟨f, hf1, hf2, hf3, hf4⟩ := allocLoop_db_map
    ((selectedStudents db spec).filter (isConstrained bd t) ++
      (selectedStudents db spec).filter fun r => !isConstrained bd t r) bd db t
  refine ⟨f, by rw [h2, hf1], hf2, ?_, hf4⟩
  intro s hs
  refine hf3 s ?_
  intro hmem
  obtain ⟨r, hr, hrid⟩ := List.mem_map.mp hmem
  rcases List.mem_append.mp hr with hr' | hr'
  · exact hs (hrid ▸ List.mem_map.mpr ⟨r, (List.mem_filter.mp hr').1, rfl⟩)
  · exact hs (hrid ▸ List.mem_map.mpr ⟨r, (List.mem_filter.mp hr').1, rfl⟩)

/-- One pass preserves the capacity invariant when every selected row is a
still-unassigned student. -/
theorem pass_capinv (db : List Student) (bd : BusData) (t : Nat)
    (spec : Option (List Nat)) (total : String → Nat)
    (hkeys : (bd.map (·.1)).Nodup) (hnone : ∀ p ∈ bd, p.1 ≠ "None")
    (hids : (db.map (·.id)).Nodup)
    (hsel : ∀ r ∈ selectedStudents db spec, ∃ s ∈ db, s.id = r.1 ∧ s.bus_allotted = "None")
    (hinv : CapInv total bd db) :
    CapInv total (allocate_students_fair_fuzzy db bd t spec).1
      (allocate_students_fair_fuzzy db bd t spec).2.1 := by
  have h := pass_eq_combined db bd t spec
  have h1 := congrArg Prod.fst h
  have h2 := congrArg (fun x : BusData × List Student => x.2) h
  dsimp at h1 h2
  rw [h1, h2]
  set students := selectedStudents db spec with hstu
  have hperm : List.Perm (students.filter (isConstrained bd t) ++
      students.filter fun r => !isConstrained bd t r) students :=
    List.filter_append_perm _ students
  refine allocLoop_capinv _ bd db t total hkeys hnone hids ?_ ?_ hinv
  · have hstud_nodup : (students.map (·.1)).Nodup :=
      (selectedStudents_ids_sublist db spec).nodup hids
    exact ((hperm.map (·.1)).nodup_iff).mpr hstud_nodup
  · intro r hr
    exact hsel r (hperm.mem_iff.mp hr)

/-! ### Scheduler-level helpers -/

theorem try_allocate_cases (sid : Nat) (choice : String) (bd : BusData)
    (db : List Student) (t : Nat) :
    try_allocate_student sid choice bd db t = (bd, db, false) ∨
    ∃ c : Cand, c ∈ candidatesOf choice bd t ∧ 0 < seatsOf bd c.1 ∧
      try_allocate_student sid choice bd db t =
        (consumeSeat bd c.1, updateStudent db sid c.1 c.2.1, true) := by
  rw [try_allocate_eq]
  cases hf : (match_buses_by_choice choice bd t).find? (hasSeat bd) with
  | none => exact Or.inl rfl
  | some c =>
    refine Or.inr ⟨c, mem_match_buses.mp (List.mem_of_find?_eq_some hf), ?_, rfl⟩
    simpa [hasSeat] using List.find?_some hf

theorem two_stage_eq (db : List Student) (bd : BusData) :
    two_stage_allotment db bd =
      if (allocate_students_fair_fuzzy db bd 50 none).2.2.isEmpty then
        allocate_students_fair_fuzzy db bd 50 none
      else
        allocate_students_fair_fuzzy (allocate_students_fair_fuzzy db bd 50 none).2.1
          (allocate_students_fair_fuzzy db bd 50 none).1 45
          (some (allocate_students_fair_fuzzy db bd 50 none).2.2) := rfl

theorem selectedStudents_some_ids_subset {db : List Student} {ids : List Nat}
    (hne : ids.isEmpty = false) :
    ∀ x ∈ (selectedStudents db (some ids)).map (·.1), x ∈ ids := by
  intro x hx
  rw [selectedStudents_some, if_neg (by simp [hne])] at hx
  obtain ⟨r, hr, hrx⟩ := List.mem_map.mp hx
  obtain ⟨s, hs, hsr⟩ := List.mem_map.mp hr
  have hcont : s.id ∈ ids := by simpa using (List.mem_filter.mp hs).2
  rw [← hrx, ← hsr]
  exact hcont

theorem assigned_id_not_unallotted {db : List Student} (hids : (db.map (·.id)).Nodup)
    {s : Student} (hs : s ∈ db) (hassigned : s.bus_allotted ≠ "None") :
    s.id ∉ (db.filter fun x => x.bus_allotted == "None").map (·.id) := by
  intro hmem
  obtain ⟨s', hs', he⟩ := List.mem_map.mp hmem
  have hs'db := (List.mem_filter.mp hs').1
  have hs'None : s'.bus_allotted = "None" := by simpa using (List.mem_filter.mp hs').2
  have heq : s' = s := List.inj_on_of_nodup_map hids hs'db hs he
  exact hassigned (heq ▸ hs'None)

theorem unallotted_filter_eq {db : List Student} (hids : (db.map (·.id)).Nodup) :
    (db.filter fun s =>
        ((db.filter fun x => x.bus_allotted == "None").map (·.id)).contains s.id) =
      db.filter fun s => s.bus_allotted == "None" := by
  refine List.filter_congr ?_
  intro s hs
  by_cases hb : (s.bus_allotted == "None") = true
  · rw [hb]
    have hm : s.id ∈ (db.filter fun x => x.bus_allotted == "None").map (·.id) :=
      List.mem_map.mpr ⟨s, List.mem_filter.mpr ⟨hs, hb⟩, rfl⟩
    simpa using hm
  · have hnot : s.id ∉ (db.filter fun x => x.bus_allotted == "None").map (·.id) :=
      assigned_id_not_unallotted hids hs (by simpa using hb)
    cases hc : ((db.filter fun x => x.bus_allotted == "None").map (·.id)).contains s.id with
    | false => exact ((Bool.eq_false_iff).mpr hb).symm
    | true => exact absurd (by simpa using hc) hnot

/-- C8: the similarity scorer returns, for every pair of strings, an integer
in `[0, 100]`; it is symmetric and reflexive (identical strings score 100).
The scorer is modelled from the spec because `fuzz.ratio` is library code
outside this repository. -/
theorem C8_scorer_range_symm_refl (a b : String) :
    fuzz_ratio a b ≤ 100 ∧ fuzz_ratio a b = fuzz_ratio b a ∧ fuzz_ratio a a = 100 := by
  refine ⟨?_, ?_, ?_⟩
  · unfold fuzz_ratio
    set x := a.toList
    set y := b.toList
    by_cases h : x.length + y.length = 0
    · simp [h]
    · simp only [if_neg h]
      have hT : 0 < x.length + y.length := Nat.pos_of_ne_zero h
      have h2 : 2 * lcs x y ≤ x.length + y.length := by
        have h1 := lcsAux_le_left (x.length + y.length) x y
        have h2 := lcsAux_le_right (x.length + y.length) x y
        unfold lcs
        omega
      have hle : 200 * lcs x y ≤ 100 * (x.length + y.length) := by omega
      calc 200 * lcs x y / (x.length + y.length)
          ≤ 100 * (x.length + y.length) / (x.length + y.length) :=
            Nat.div_le_div_right hle
        _ = 100 := Nat.mul_div_cancel 100 hT
  · show (if a.toList.length + b.toList.length = 0 then 100
        else 200 * lcs a.toList b.toList / (a.toList.length + b.toList.length)) =
      (if b.toList.length + a.toList.length = 0 then 100
        else 200 * lcs b.toList a.toList / (b.toList.length + a.toList.length))
    rw [lcs_symm, Nat.add_comm a.toList.length]
  · unfold fuzz_ratio
    set x := a.toList
    by_cases h : x.length + x.length = 0
    · simp [h]
    · simp only [if_neg h]
      have hT : 0 < x.length := by omega
      rw [lcs_self]
      have : 200 * x.length = 100 * (x.length + x.length) := by ring
      rw [this, Nat.mul_div_cancel 100 (by omega)]

/-- C5: `match_buses_by_choice` returns exactly the `(bus, stop, score)`
triples over every bus and every stop in its stop list whose score reaches
the threshold — one candidate per matching stop occurrence, duplicates kept
(the result is a permutation of the enumeration-order list) — sorted by
score descending, with equal-score candidates in enumeration order (the
filter of each score class is preserved verbatim); as a pure function of
its arguments it mutates no state. -/
theorem C5_matcher_contract (choice : String) (bd : BusData) (t : Nat) :
    List.Perm (match_buses_by_choice choice bd t) (candidatesOf choice bd t) ∧
    (match_buses_by_choice choice bd t).Sorted scoreGe ∧
    (∀ s : Nat, (match_buses_by_choice choice bd t).filter (fun c => c.2.2 == s) =
      (candidatesOf choice bd t).filter fun c => c.2.2 == s) ∧
    (∀ (n st : String) (sc : Nat), (n, st, sc) ∈ match_buses_by_choice choice bd t ↔
      ∃ b : Bus, (n, b) ∈ bd ∧ st ∈ b.stops ∧ sc = fuzz_ratio choice st ∧ t ≤ sc) :=
  ⟨match_buses_perm choice bd t, match_buses_sorted choice bd t,
    fun s => match_buses_stable choice bd t s,
    fun _ _ _ => mem_match_buses.trans mem_candidatesOf⟩

/-- C6: for thresholds `t1 > t2` the candidate list at `t2` contains every
candidate found at `t1`, and one allocation pass never decreases the number
of assigned students (no bus may be called `"None"`, the unassigned
sentinel). -/
theorem C6_monotone_relaxation (choice : String) (bd : BusData) (t1 t2 : Nat)
    (h12 : t2 < t1) (db : List Student) (spec : Option (List Nat))
    (hnone : ∀ p ∈ bd, p.1 ≠ "None") :
    (∀ c ∈ match_buses_by_choice choice bd t1, c ∈ match_buses_by_choice choice bd t2) ∧
    numAssigned db ≤ numAssigned (allocate_students_fair_fuzzy db bd t2 spec).2.1 := by
  constructor
  · intro c hc
    exact mem_match_buses.mpr (candidatesOf_mono (le_of_lt h12) c (mem_match_buses.mp hc))
  · obtain ⟨f, hf1, _, _, hf4⟩ := pass_db_map db bd t2 spec
    rw [hf1]
    exact numAssigned_map_le db f (hf4 hnone)

theorem C6_monotone_relaxation_witness :
    (45 < 50 ∧ ∀ p ∈ ([("busa", ⟨["a"], 1, 0⟩)] : BusData), p.1 ≠ "None") ∧
    ((∀ c ∈ match_buses_by_choice "a" [("busa", ⟨["a"], 1, 0⟩)] 50,
      c ∈ match_buses_by_choice "a" [("busa", ⟨["a"], 1, 0⟩)] 45) ∧
    numAssigned [⟨1, "a", "a", "None", "None"⟩] ≤
      numAssigned (allocate_students_fair_fuzzy [⟨1, "a", "a", "None", "None"⟩]
        [("busa", ⟨["a"], 1, 0⟩)] 45 none).2.1) :=
  ⟨⟨by decide, by decide⟩,
    C6_monotone_relaxation "a" [("busa", ⟨["a"], 1, 0⟩)] 50 45 (by decide)
      [⟨1, "a", "a", "None", "None"⟩] none (by decide)⟩

/-- C4: one seating attempt (first choice then second choice) seats the
student on the first candidate — in the matcher's sorted order for choice 1
followed by choice 2 — whose bus still has a seat, records exactly that
(bus, stop) pair in the student's row, consumes exactly one seat of exactly
that bus, and returns true; if no candidate of either choice has a free
seat it returns false and leaves the bus data and the student table
completely unchanged. -/
theorem C4_attempt_seat (sid : Nat) (ch1 ch2 : String) (bd : BusData) (db : List Student)
    (t : Nat) (hkeys : (bd.map (·.1)).Nodup) :
    ((match_buses_by_choice ch1 bd t ++ match_buses_by_choice ch2 bd t).find?
        (hasSeat bd) = none →
      attemptSeat sid ch1 ch2 bd db t = (bd, db, false)) ∧
    (∀ c : Cand, (match_buses_by_choice ch1 bd t ++ match_buses_by_choice ch2 bd t).find?
        (hasSeat bd) = some c →
      attemptSeat sid ch1 ch2 bd db t =
        (consumeSeat bd c.1, updateStudent db sid c.1 c.2.1, true) ∧
      0 < seatsOf bd c.1 ∧
      seatsOf (consumeSeat bd c.1) c.1 = seatsOf bd c.1 - 1 ∧
      (∀ n, n ≠ c.1 → seatsOf (consumeSeat bd c.1) n = seatsOf bd n) ∧
      sumSeats (consumeSeat bd c.1) + 1 = sumSeats bd) := by
  constructor
  · intro hf
    rw [attemptSeat_eq, hf]
  · intro c hf
    have hpos : 0 < seatsOf bd c.1 := by simpa [hasSeat] using List.find?_some hf
    exact ⟨by rw [attemptSeat_eq, hf], hpos, seatsOf_consumeSeat_self bd c.1,
      fun n hn => seatsOf_consumeSeat_ne bd hn, sumSeats_consumeSeat hkeys hpos⟩

theorem C4_attempt_seat_witness :
    ((([("busa", ⟨["a"], 1, 0⟩)] : BusData).map (·.1)).Nodup) ∧
    (((match_buses_by_choice "a" [("busa", ⟨["a"], 1, 0⟩)] 50 ++
        match_buses_by_choice "b" [("busa", ⟨["a"], 1, 0⟩)] 50).find?
        (hasSeat [("busa", ⟨["a"], 1, 0⟩)]) = none →
      attemptSeat 1 "a" "b" [("busa", ⟨["a"], 1, 0⟩)]
        [⟨1, "a", "b", "None", "None"⟩] 50 =
        ([("busa", ⟨["a"], 1, 0⟩)], [⟨1, "a", "b", "None", "None"⟩], false)) ∧
    (∀ c : Cand, (match_buses_by_choice "a" [("busa", ⟨["a"], 1, 0⟩)] 50 ++
        match_buses_by_choice "b" [("busa", ⟨["a"], 1, 0⟩)] 50).find?
        (hasSeat [("busa", ⟨["a"], 1, 0⟩)]) = some c →
      attemptSeat 1 "a" "b" [("busa", ⟨["a"], 1, 0⟩)]
        [⟨1, "a", "b", "None", "None"⟩] 50 =
        (consumeSeat [("busa", ⟨["a"], 1, 0⟩)] c.1,
          updateStudent [⟨1, "a", "b", "None", "None"⟩] 1 c.1 c.2.1, true) ∧
      0 < seatsOf [("busa", ⟨["a"], 1, 0⟩)] c.1 ∧
      seatsOf (consumeSeat [("busa", ⟨["a"], 1, 0⟩)] c.1) c.1 =
        seatsOf [("busa", ⟨["a"], 1, 0⟩)] c.1 - 1 ∧
      (∀ n, n ≠ c.1 → seatsOf (consumeSeat [("busa", ⟨["a"], 1, 0⟩)] c.1) n =
        seatsOf [("busa", ⟨["a"], 1, 0⟩)] n) ∧
      sumSeats (consumeSeat [("busa", ⟨["a"], 1, 0⟩)] c.1) + 1 =
        sumSeats [("busa", ⟨["a"], 1, 0⟩)])) :=
  ⟨by decide, C4_attempt_seat 1 "a" "b" [("busa", ⟨["a"], 1, 0⟩)]
    [⟨1, "a", "b", "None", "None"⟩] 50 (by decide)⟩

/-- C3: within one pass a selected row is classified single-option
(constrained) iff the set of distinct bus names among the candidates of its
two choices has exactly one element; the pass executes exactly the
constrained rows first and then the flexible rows, each bucket in stable
selection order, and the combined execution sequence is a permutation of
the selected rows (each row classified and executed exactly once). -/
theorem C3_classification (db : List Student) (bd : BusData) (t : Nat)
    (spec : Option (List Nat)) :
    (∀ r ∈ selectedStudents db spec,
      (isConstrained bd t r = true ↔
        ((match_buses_by_choice r.2.1 bd t).map (·.1) ++
          (match_buses_by_choice r.2.2 bd t).map (·.1)).toFinset.card = 1)) ∧
    List.Perm ((selectedStudents db spec).filter (isConstrained bd t) ++
      (selectedStudents db spec).filter fun r => !isConstrained bd t r)
      (selectedStudents db spec) ∧
    ((allocate_students_fair_fuzzy db bd t spec).1,
      (allocate_students_fair_fuzzy db bd t spec).2.1) =
      allocLoop ((selectedStudents db spec).filter (isConstrained bd t) ++
        (selectedStudents db spec).filter fun r => !isConstrained bd t r) bd db t := by
  refine ⟨?_, List.filter_append_perm _ _, pass_eq_combined db bd t spec⟩
  intro r _
  unfold isConstrained feasibleBuses
  rw [List.card_toFinset]
  exact beq_iff_eq

/-- C10: when the pass is restricted to a non-empty id list, the unallotted
list it returns is computed over the whole student table: every student of
the table, also outside the given subset, whose assignment marker is still
the `"None"` sentinel after the pass appears in it. -/
theorem C10_unassigned_whole_population (db : List Student) (bd : BusData) (t : Nat)
    (ids : List Nat) (hne : ids ≠ []) :
    (∀ s ∈ db, s.id ∉ ids → s.bus_allotted = "None" →
      s.id ∈ (allocate_students_fair_fuzzy db bd t (some ids)).2.2) ∧
    (allocate_students_fair_fuzzy db bd t (some ids)).2.2 =
      ((allocate_students_fair_fuzzy db bd t (some ids)).2.1.filter
        fun s => s.bus_allotted == "None").map (·.id) := by
  refine ⟨?_, pass_unallotted_eq db bd t (some ids)⟩
  intro s hs hout hNone
  obtain ⟨f, hf1, _, hf3, _⟩ := pass_db_map db bd t (some ids)
  have hsel : s.id ∉ (selectedStudents db (some ids)).map (·.1) := by
    intro hmem
    exact hout (selectedStudents_some_ids_subset
      (by simpa [List.isEmpty_iff] using hne) s.id hmem)
  have hfs : f s = s := hf3 s hsel
  rw [pass_unallotted_eq]
  refine List.mem_map.mpr ⟨s, List.mem_filter.mpr ⟨?_, by simp [hNone]⟩, rfl⟩
  rw [hf1]
  exact hfs ▸ List.mem_map_of_mem f hs

theorem C10_unassigned_whole_population_witness :
    (([1] : List Nat) ≠ []) ∧
    ((∀ s ∈ [(⟨1, "a", "a", "None", "None"⟩ : Student), ⟨2, "x", "x", "None", "None"⟩],
      s.id ∉ [1] → s.bus_allotted = "None" →
      s.id ∈ (allocate_students_fair_fuzzy
        [⟨1, "a", "a", "None", "None"⟩, ⟨2, "x", "x", "None", "None"⟩]
        [("busa", ⟨["a"], 1, 0⟩)] 50 (some [1])).2.2) ∧
    (allocate_students_fair_fuzzy
        [⟨1, "a", "a", "None", "None"⟩, ⟨2, "x", "x", "None", "None"⟩]
        [("busa", ⟨["a"], 1, 0⟩)] 50 (some [1])).2.2 =
      ((allocate_students_fair_fuzzy
        [⟨1, "a", "a", "None", "None"⟩, ⟨2, "x", "x", "None", "None"⟩]
        [("busa", ⟨["a"], 1, 0⟩)] 50 (some [1])).2.1.filter
          fun s => s.bus_allotted == "None").map (·.id)) :=
  ⟨by decide, C10_unassigned_whole_population
    [⟨1, "a", "a", "None", "None"⟩, ⟨2, "x", "x", "None", "None"⟩]
    [("busa", ⟨["a"], 1, 0⟩)] 50 [1] (by decide)⟩

/-- C9 fails on the code: a bus file whose first `Seats Available` cell is
negative is loaded as-is — the run still begins (the only gate before the
passes is the student-CSV column check). -/
theorem C9_counterexample :
    (∃ f ∈ ([⟨"bus1", ["central"], some (-3)⟩] : List BusCsvFile), loadSeats f < 0) ∧
    run_begins required_cols [⟨"bus1", ["central"], some (-3)⟩] = true := by
  constructor
  · exact ⟨⟨"bus1", ["central"], some (-3)⟩, by decide, by decide⟩
  · decide

/-- C9 amended: a student CSV missing a required preference column is
rejected before any pass starts; a bus file with negative capacity is not
rejected — it is loaded with its negative seat count and the run begins. -/
theorem C9_amended_student_columns_gate (cols : List String) (files : List BusCsvFile)
    (h : "Choice 1" ∉ cols ∨ "Choice 2" ∉ cols) :
    run_begins cols files = false := by
  unfold run_begins student_csv_accepted required_cols
  rcases h with h | h
  · exact List.all_eq_false.mpr ⟨"Choice 1", by simp, by simpa using h⟩
  · exact List.all_eq_false.mpr ⟨"Choice 2", by simp, by simpa using h⟩

theorem C9_amended_student_columns_gate_witness :
    ("Choice 1" ∉ (["Name"] : List String) ∨ "Choice 2" ∉ (["Name"] : List String)) ∧
    run_begins ["Name"] [] = false :=
  ⟨Or.inl (by decide), C9_amended_student_columns_gate ["Name"] [] (Or.inl (by decide))⟩

/-- C7 fails on the code: over a population in which every student already
has an assignment, re-running one allocation pass still re-processes those
students and decrements remaining capacity again (here bus `busa` goes from
1 remaining seat to 0, its counter from 1 to 2). -/
theorem C7_counterexample :
    (∀ s ∈ ([⟨1, "central", "central", "busa", "central"⟩] : List Student),
      s.bus_allotted ≠ "None") ∧
    (allocate_students_fair_fuzzy [⟨1, "central", "central", "busa", "central"⟩]
        [("busa", ⟨["central"], 1, 1⟩)] 50 none).1 ≠ [("busa", ⟨["central"], 1, 1⟩)] := by
  constructor
  · decide
  · decide

/-- C7 amended: re-running one allocation pass over a fully-assigned
population re-attempts every selected student rather than skipping it, so
idempotence only holds under an extra condition: when no bus has any
remaining seat, the pass returns the bus data and the student table
unchanged.  (This is a sufficient condition, not a characterization: a pass
can also be a no-op for other reasons, e.g. when no choice matches any
stop at the threshold.) -/
theorem C7_amended_idempotent_when_full (db : List Student) (bd : BusData) (t : Nat)
    (spec : Option (List Nat))
    (hassigned : ∀ s ∈ db, s.bus_allotted ≠ "None")
    (hseats : ∀ p ∈ bd, p.2.seats = 0) :
    (allocate_students_fair_fuzzy db bd t spec).1 = bd ∧
    (allocate_students_fair_fuzzy db bd t spec).2.1 = db := by
  have hseatsOf : ∀ name, seatsOf bd name = 0 := by
    intro name
    unfold seatsOf
    cases hf : bd.find? (fun p => p.1 == name) with
    | none => rfl
    | some q => exact hseats q (List.mem_of_find?_eq_some hf)
  have hfind : ∀ l : List Cand, l.find? (hasSeat bd) = none := by
    intro l
    refine List.find?_eq_none.mpr ?_
    intro c _
    simp [hasSeat, hseatsOf]
  have hattempt : ∀ (sid : Nat) (ch1 ch2 : String) (db' : List Student),
      attemptSeat sid ch1 ch2 bd db' t = (bd, db', false) := by
    intro sid ch1 ch2 db'
    rw [attemptSeat_eq, hfind]
  have hloop : ∀ (rows : List (Nat × String × String)) (db' : List Student),
      allocLoop rows bd db' t = (bd, db') := by
    intro rows
    induction rows with
    | nil => intro db'; rfl
    | cons row rest ih =>
      intro db'
      obtain ⟨sid, ch1, ch2⟩ := row
      rw [allocLoop_cons, hattempt]
      exact ih db'
  have h := pass_eq_combined db bd t spec
  rw [hloop] at h
  exact Prod.ext_iff.mp h

theorem selected_unallotted_eq {db1 : List Student} (hids1 : (db1.map (·.id)).Nodup)
    (hne : ((db1.filter fun s => s.bus_allotted == "None").map (·.id)).isEmpty = false) :
    selectedStudents db1
        (some ((db1.filter fun s => s.bus_allotted == "None").map (·.id))) =
      (db1.filter fun s => s.bus_allotted == "None").map rowOf := by
  rw [selectedStudents_some, if_neg (by simp [hne]), unallotted_filter_eq hids1]

/-- C2: in the two-stage flow, the second pass selects exactly the students
still unassigned after the first pass (their rows re-fetched from the
table), and a student assigned by the first pass keeps its exact row —
assignment included — through the second pass (write-once assignment). -/
theorem C2_multi_pass_write_once (db : List Student) (bd : BusData)
    (hids : (db.map (·.id)).Nodup) :
    ((allocate_students_fair_fuzzy db bd 50 none).2.2 ≠ [] →
      selectedStudents (allocate_students_fair_fuzzy db bd 50 none).2.1
          (some (allocate_students_fair_fuzzy db bd 50 none).2.2) =
        ((allocate_students_fair_fuzzy db bd 50 none).2.1.filter
          fun s => s.bus_allotted == "None").map rowOf) ∧
    (∀ s ∈ (allocate_students_fair_fuzzy db bd 50 none).2.1,
      s.bus_allotted ≠ "None" → s ∈ (two_stage_allotment db bd).2.1) := by
  have hids1 : ((allocate_students_fair_fuzzy db bd 50 none).2.1.map (·.id)).Nodup := by
    rw [(pass_keys_ids db bd 50 none).2]
    exact hids
  have hu := pass_unallotted_eq db bd 50 none
  constructor
  · intro hne
    have hne' : ((allocate_students_fair_fuzzy db bd 50 none).2.2).isEmpty = false := by
      cases h : (allocate_students_fair_fuzzy db bd 50 none).2.2 with
      | nil => exact absurd h hne
      | cons a l => rfl
    rw [hu]
    exact selected_unallotted_eq hids1 (by rw [← hu]; exact hne')
  · intro s hs hassigned
    rw [two_stage_eq]
    by_cases he : (allocate_students_fair_fuzzy db bd 50 none).2.2.isEmpty
    · rw [if_pos he]
      exact hs
    · rw [if_neg he]
      have hne' : ((allocate_students_fair_fuzzy db bd 50 none).2.2).isEmpty = false :=
        Bool.eq_false_iff.mpr he
      obtain ⟨f, hf1, _, hf3, _⟩ := pass_db_map (allocate_students_fair_fuzzy db bd 50 none).2.1
        (allocate_students_fair_fuzzy db bd 50 none).1 45
        (some (allocate_students_fair_fuzzy db bd 50 none).2.2)
      have hnotin : s.id ∉ (selectedStudents (allocate_students_fair_fuzzy db bd 50 none).2.1
          (some (allocate_students_fair_fuzzy db bd 50 none).2.2)).map (·.1) := by
        intro hmem
        have hsub := selectedStudents_some_ids_subset hne' s.id hmem
        rw [hu] at hsub
        exact assigned_id_not_unallotted hids1 hs hassigned hsub
      have hfs : f s = s := hf3 s hnotin
      rw [hf1]
      exact hfs ▸ List.mem_map_of_mem f hs

theorem C2_multi_pass_write_once_witness :
    ((([(⟨1, "a", "a", "None", "None"⟩ : Student), ⟨2, "a", "a", "None", "None"⟩].map
      (·.id)).Nodup)) ∧
    (((allocate_students_fair_fuzzy
        [⟨1, "a", "a", "None", "None"⟩, ⟨2, "a", "a", "None", "None"⟩]
        [("bus1", ⟨["a"], 1, 0⟩)] 50 none).2.2 ≠ [] →
      selectedStudents (allocate_students_fair_fuzzy
          [⟨1, "a", "a", "None", "None"⟩, ⟨2, "a", "a", "None", "None"⟩]
          [("bus1", ⟨["a"], 1, 0⟩)] 50 none).2.1
          (some (allocate_students_fair_fuzzy
            [⟨1, "a", "a", "None", "None"⟩, ⟨2, "a", "a", "None", "None"⟩]
            [("bus1", ⟨["a"], 1, 0⟩)] 50 none).2.2) =
        ((allocate_students_fair_fuzzy
          [⟨1, "a", "a", "None", "None"⟩, ⟨2, "a", "a", "None", "None"⟩]
          [("bus1", ⟨["a"], 1, 0⟩)] 50 none).2.1.filter
            fun s => s.bus_allotted == "None").map rowOf) ∧
    (∀ s ∈ (allocate_students_fair_fuzzy
        [⟨1, "a", "a", "None", "None"⟩, ⟨2, "a", "a", "None", "None"⟩]
        [("bus1", ⟨["a"], 1, 0⟩)] 50 none).2.1,
      s.bus_allotted ≠ "None" →
        s ∈ (two_stage_allotment
          [⟨1, "a", "a", "None", "None"⟩, ⟨2, "a", "a", "None", "None"⟩]
          [("bus1", ⟨["a"], 1, 0⟩)]).2.1)) :=
  ⟨by decide, C2_multi_pass_write_once
    [⟨1, "a", "a", "None", "None"⟩, ⟨2, "a", "a", "None", "None"⟩]
    [("bus1", ⟨["a"], 1, 0⟩)] (by decide)⟩

/-- C1: starting from a freshly loaded batch (every student unassigned,
distinct student ids, distinct bus names), after the first pass and after
the whole two-stage run every bus's remaining seats equal its loaded
capacity minus the number of students currently allotted to it, and lie in
`[0, capacity]`; moreover the executor, the single mutation point, leaves
everything unchanged on a failed attempt and consumes exactly one seat in
total on a successful one. -/
theorem C1_capacity_invariant (db : List Student) (bd : BusData)
    (hfresh : ∀ s ∈ db, s.bus_allotted = "None")
    (hids : (db.map (·.id)).Nodup)
    (hkeys : (bd.map (·.1)).Nodup)
    (hnone : ∀ p ∈ bd, p.1 ≠ "None") :
    (∀ p ∈ (allocate_students_fair_fuzzy db bd 50 none).1,
      p.2.seats + countAssigned (allocate_students_fair_fuzzy db bd 50 none).2.1 p.1 =
        seatsOf bd p.1 ∧ p.2.seats ≤ seatsOf bd p.1) ∧
    (∀ p ∈ (two_stage_allotment db bd).1,
      p.2.seats + countAssigned (two_stage_allotment db bd).2.1 p.1 = seatsOf bd p.1 ∧
      p.2.seats ≤ seatsOf bd p.1) ∧
    (∀ (t sid : Nat) (ch : String) (bd' : BusData) (db' : List Student),
      (bd'.map (·.1)).Nodup →
      ((try_allocate_student sid ch bd' db' t).2.2 = false →
        try_allocate_student sid ch bd' db' t = (bd', db', false)) ∧
      ((try_allocate_student sid ch bd' db' t).2.2 = true →
        sumSeats (try_allocate_student sid ch bd' db' t).1 + 1 = sumSeats bd')) := by
  have hinv0 : CapInv (seatsOf bd) bd db := by
    intro p hp
    have hcnt : countAssigned db p.1 = 0 := by
      unfold countAssigned
      rw [List.filter_eq_nil_iff.mpr ?_]
      · rfl
      · intro s hsdb hbeq
        have h1 : s.bus_allotted = p.1 := by simpa using hbeq
        exact hnone p hp (by rw [← h1, hfresh s hsdb])
    have hseats : seatsOf bd p.1 = p.2.seats := by
      refine seatsOf_eq_of_mem_nodup hkeys ?_
      simpa using hp
    rw [hcnt, hseats]
    omega
  have hsel1 : ∀ r ∈ selectedStudents db (none : Option (List Nat)),
      ∃ s ∈ db, s.id = r.1 ∧ s.bus_allotted = "None" := by
    intro r hr
    obtain ⟨s, hs, hrow⟩ := selectedStudents_mem_row hr
    exact ⟨s, hs, by rw [← hrow]; rfl, hfresh s hs⟩
  have hinv1 := pass_capinv db bd 50 none _ hkeys hnone hids hsel1 hinv0
  have hkeys1 : ((allocate_students_fair_fuzzy db bd 50 none).1.map (·.1)).Nodup := by
    rw [(pass_keys_ids db bd 50 none).1]
    exact hkeys
  have hids1 : ((allocate_students_fair_fuzzy db bd 50 none).2.1.map (·.id)).Nodup := by
    rw [(pass_keys_ids db bd 50 none).2]
    exact hids
  have hnone1 : ∀ p ∈ (allocate_students_fair_fuzzy db bd 50 none).1, p.1 ≠ "None" := by
    intro p hp
    have hm : p.1 ∈ (allocate_students_fair_fuzzy db bd 50 none).1.map (·.1) :=
      List.mem_map.mpr ⟨p, hp, rfl⟩
    rw [(pass_keys_ids db bd 50 none).1] at hm
    exact key_ne_none hnone hm
  refine ⟨?_, ?_, ?_⟩
  · intro p hp
    have h := hinv1 p hp
    exact ⟨h, by omega⟩
  · rw [two_stage_eq]
    by_cases he : (allocate_students_fair_fuzzy db bd 50 none).2.2.isEmpty
    · rw [if_pos he]
      intro p hp
      have h := hinv1 p hp
      exact ⟨h, by omega⟩
    · rw [if_neg he]
      have hne' : ((allocate_students_fair_fuzzy db bd 50 none).2.2).isEmpty = false :=
        Bool.eq_false_iff.mpr he
      have hu := pass_unallotted_eq db bd 50 none
      have hsel2 : ∀ r ∈ selectedStudents (allocate_students_fair_fuzzy db bd 50 none).2.1
          (some (allocate_students_fair_fuzzy db bd 50 none).2.2),
          ∃ s ∈ (allocate_students_fair_fuzzy db bd 50 none).2.1,
            s.id = r.1 ∧ s.bus_allotted = "None" := by
        intro r hr
        rw [hu, selected_unallotted_eq hids1 (by rw [← hu]; exact hne')] at hr
        obtain ⟨s, hsf, hrow⟩ := List.mem_map.mp hr
        have hsdb := (List.mem_filter.mp hsf).1
        have hsN : s.bus_allotted = "None" := by simpa using (List.mem_filter.mp hsf).2
        exact ⟨s, hsdb, by rw [← hrow]; rfl, hsN⟩
      have hinv2 := pass_capinv (allocate_students_fair_fuzzy db bd 50 none).2.1
        (allocate_students_fair_fuzzy db bd 50 none).1 45
        (some (allocate_students_fair_fuzzy db bd 50 none).2.2) _
        hkeys1 hnone1 hids1 hsel2 hinv1
      intro p hp
      have h := hinv2 p hp
      exact ⟨h, by omega⟩
  · intro t sid ch bd' db' hnd'
    rcases try_allocate_cases sid ch bd' db' t with heq | ⟨c, hc, hpos, heq⟩
    · refine ⟨fun _ => heq, fun hs => ?_⟩
      rw [heq] at hs
      simp at hs
    · refine ⟨fun hf => ?_, fun _ => ?_⟩
      · rw [heq] at hf
        simp at hf
      · rw [heq]
        exact sumSeats_consumeSeat hnd' hpos

theorem C1_capacity_invariant_witness :
    ((∀ s ∈ [(⟨1, "a", "a", "None", "None"⟩ : Student), ⟨2, "a", "a", "None", "None"⟩],
        s.bus_allotted = "None") ∧
      (([(⟨1, "a", "a", "None", "None"⟩ : Student), ⟨2, "a", "a", "None", "None"⟩].map
        (·.id)).Nodup) ∧
      ((([("bus1", ⟨["a"], 1, 0⟩)] : BusData).map (·.1)).Nodup) ∧
      (∀ p ∈ ([("bus1", ⟨["a"], 1, 0⟩)] : BusData), p.1 ≠ "None")) ∧
    ((∀ p ∈ (allocate_students_fair_fuzzy
        [⟨1, "a", "a", "None", "None"⟩, ⟨2, "a", "a", "None", "None"⟩]
        [("bus1", ⟨["a"], 1, 0⟩)] 50 none).1,
      p.2.seats + countAssigned (allocate_students_fair_fuzzy
        [⟨1, "a", "a", "None", "None"⟩, ⟨2, "a", "a", "None", "None"⟩]
        [("bus1", ⟨["a"], 1, 0⟩)] 50 none).2.1 p.1 =
        seatsOf [("bus1", ⟨["a"], 1, 0⟩)] p.1 ∧
      p.2.seats ≤ seatsOf [("bus1", ⟨["a"], 1, 0⟩)] p.1) ∧
    (∀ p ∈ (two_stage_allotment
        [⟨1, "a", "a", "None", "None"⟩, ⟨2, "a", "a", "None", "None"⟩]
        [("bus1", ⟨["a"], 1, 0⟩)]).1,
      p.2.seats + countAssigned (two_stage_allotment
        [⟨1, "a", "a", "None", "None"⟩, ⟨2, "a", "a", "None", "None"⟩]
        [("bus1", ⟨["a"], 1, 0⟩)]).2.1 p.1 =
        seatsOf [("bus1", ⟨["a"], 1, 0⟩)] p.1 ∧
      p.2.seats ≤ seatsOf [("bus1", ⟨["a"], 1, 0⟩)] p.1) ∧
    (∀ (t sid : Nat) (ch : String) (bd' : BusData) (db' : List Student),
      (bd'.map (·.1)).Nodup →
      ((try_allocate_student sid ch bd' db' t).2.2 = false →
        try_allocate_student sid ch bd' db' t = (bd', db', false)) ∧
      ((try_allocate_student sid ch bd' db' t).2.2 = true →
        sumSeats (try_allocate_student sid ch bd' db' t).1 + 1 = sumSeats bd'))) :=
  ⟨⟨by decide, by decide, by decide, by decide⟩, C1_capacity_invariant
    [⟨1, "a", "a", "None", "None"⟩, ⟨2, "a", "a", "None", "None"⟩]
    [("bus1", ⟨["a"], 1, 0⟩)] (by decide) (by decide) (by decide) (by decide)⟩

theorem C7_amended_idempotent_when_full_witness :
    ((∀ s ∈ ([⟨1, "a", "a", "busa", "a"⟩] : List Student), s.bus_allotted ≠ "None") ∧
      (∀ p ∈ ([("busa", ⟨["a"], 0, 1⟩)] : BusData), p.2.seats = 0)) ∧
    ((allocate_students_fair_fuzzy [⟨1, "a", "a", "busa", "a"⟩]
        [("busa", ⟨["a"], 0, 1⟩)] 50 none).1 = [("busa", ⟨["a"], 0, 1⟩)] ∧
    (allocate_students_fair_fuzzy [⟨1, "a", "a", "busa", "a"⟩]
        [("busa", ⟨["a"], 0, 1⟩)] 50 none).2.1 = [⟨1, "a", "a", "busa", "a"⟩]) :=
  ⟨⟨by decide, by decide⟩, C7_amended_idempotent_when_full
    [⟨1, "a", "a", "busa", "a"⟩] [("busa", ⟨["a"], 0, 1⟩)] 50 none
    (by decide) (by decide)⟩

end RitAlot
